import Mathlib

/- Formal model of `csvaction` (src/main.rs): a command-line tool that counts
the occurrences of each distinct line of a text file and writes a CSV report
of the lines sorted by descending count. -/

namespace CsvAction

/-- Model of the `std::io::Error` values the tool can encounter. -/
inductive IoError where
  | notFound
  | readError
  | invalidData
deriving DecidableEq, Repr

/-- `DataCount` (src/main.rs:12-15): one line of data and its occurrence count. -/
structure DataCount where
  line : String
  count : Nat
deriving DecidableEq, Repr

/-- One step of the worker loop body (src/main.rs:63):
`*data_count.entry(line).or_insert(0) += 1` on a `HashMap<String, usize>`.
The map is modelled as an association list whose keys are unique by
construction: the unique entry for the key is incremented when present,
otherwise a fresh entry with count 1 is appended, fixing first-insertion
order as the canonical iteration order. (The real `HashMap` iterates in an
unspecified order; every property proved below is insensitive to the order
of the association list.) -/
def entryOrInsert : List (String × Nat) → String → List (String × Nat)
  | [], line => [(line, 1)]
  | p :: rest, line =>
    if p.1 = line then (p.1, p.2 + 1) :: rest
    else p :: entryOrInsert rest line

/-- `count_data` (src/main.rs:106-114), which is also the body of each worker
spawned by `main` (src/main.rs:59-65): fold the received lines into the
frequency table. In `main`, the `MutexGuard` returned by
`data_receiver.lock().unwrap()` lives for the whole `for` loop, so the first
worker to take the receiver lock drains the entire channel in file order and
the others receive nothing; the table at join time is this sequential fold
over the produced lines. -/
def count_data (lines : List String) : List (String × Nat) :=
  lines.foldl entryOrInsert []

/-- Lookup of a key's count in the table model, 0 when the key is absent
(the value `data_count.entry(line).or_insert(0)` starts from). -/
def getCount : List (String × Nat) → String → Nat
  | [], _ => 0
  | p :: rest, key => if p.1 = key then p.2 else getCount rest key

/-- The keys of the table, in iteration order. -/
def keysOf (m : List (String × Nat)) : List String := m.map Prod.fst

/-- `count_lines` (src/main.rs:153-157). The input file is modelled as
`Except IoError items`: the outer `Except` is the result of `File::open`,
and `items` is the sequence of results yielded by the `BufReader::lines()`
iterator (an `Except.error` item models a `read_line` failure such as
invalid UTF-8, whose bytes are consumed before the error is reported).
`reader.lines().count()` counts every yielded item, `Err` items included,
so only a `File::open` failure propagates as an error. -/
def count_lines (input : Except IoError (List (Except IoError String))) :
    Except IoError Nat :=
  match input with
  | .error e => .error e
  | .ok items => .ok items.length

/-- The send loop of `read_file` (src/main.rs:96-100): each `line?` either
propagates the first read error or sends the line into the channel; on
success the result is the list of lines sent, in file order. -/
def collectLines : List (Except IoError String) → Except IoError (List String)
  | [] => .ok []
  | .error e :: _ => .error e
  | .ok s :: rest =>
    match collectLines rest with
    | .error e => .error e
    | .ok ls => .ok (s :: ls)

/-- `read_file` (src/main.rs:88-103): `File::open` followed by the send loop. -/
def read_file (input : Except IoError (List (Except IoError String))) :
    Except IoError (List String) :=
  match input with
  | .error e => .error e
  | .ok items => collectLines items

/-- Insertion step of a stable sort by `count` descending, modelling
`data_count_list.sort_by(|a, b| b.count.cmp(&a.count))` (src/main.rs:131):
`sort_by` is a stable sort, so an element moves in front of an earlier one
only when its count is strictly larger. -/
def insertDesc (x : DataCount) : List DataCount → List DataCount
  | [] => [x]
  | y :: ys => if y.count ≤ x.count then x :: y :: ys else y :: insertDesc x ys

/-- The stable sort by `count` descending (src/main.rs:131). -/
def sortDesc : List DataCount → List DataCount
  | [] => []
  | x :: xs => insertDesc x (sortDesc xs)

/-- A text file on disk, as the list of lines written to it (each `writeln!`
appends exactly one). -/
structure FsFile where
  content : List String
deriving DecidableEq, Repr

/-- `File::create(result_path)` (src/main.rs:134): creates the output file if
missing and truncates it to empty if it exists — the previous state is
discarded either way. -/
def fileCreate (_prev : Option FsFile) : FsFile := ⟨[]⟩

/-- One `writeln!(file, ...)`: append one line to the file. -/
def writeln (f : FsFile) (s : String) : FsFile := ⟨f.content ++ [s]⟩

/-- The CSV rendering of one data row, `writeln!(file, "{},{}", line, count)`
(src/main.rs:141-145): the line text verbatim, a comma, the decimal count —
no quoting or escaping of any character of the line. -/
def renderRow (r : DataCount) : String := r.line ++ "," ++ toString r.count

/-- The sorted row list built inside `write_sort_and_merge_result`
(src/main.rs:122-131): the table's entries turned into `DataCount` values
and stably sorted by count descending. -/
def reportRows (data_count : List (String × Nat)) : List DataCount :=
  sortDesc (data_count.map (fun p => DataCount.mk p.1 p.2))

/-- `write_sort_and_merge_result` (src/main.rs:117-150): create/truncate the
output file, write the header `Line,Count`, then write each sorted row.
`prev` is the output file's state before the call (`none` = no such file). -/
def write_sort_and_merge_result (prev : Option FsFile)
    (data_count : List (String × Nat)) : FsFile :=
  (reportRows data_count).foldl (fun f r => writeln f (renderRow r))
    (writeln (fileCreate prev) "Line,Count")

/-- The frequency table at the join point of `main` (src/main.rs:53-74), as a
function of `args.concurrency`. With `concurrency = 0` the spawn loop runs
zero times, nothing ever receives from the channel, and the table stays
empty. With at least one worker, the first worker to acquire the receiver
mutex holds its guard for its whole `for` loop, drains the channel until it
is closed and empty, and the remaining workers then observe a closed, empty
channel; the table is the sequential fold of all produced lines. -/
def workersTable (concurrency : Nat) (lines : List String) :
    List (String × Nat) :=
  match concurrency with
  | 0 => []
  | _ + 1 => count_data lines

/-- `main` (src/main.rs:33-85) as a state transformer on the output file:
count the input lines (`unwrap` aborts on an open failure, before the output
file exists), spawn the workers, read and send the file (`unwrap` aborts on
the first read error, before the report phase), join the workers, then write
the report. The first component is the run's outcome; the second is the
output file's state after the run. -/
def mainRun (concurrency : Nat)
    (input : Except IoError (List (Except IoError String)))
    (prevOut : Option FsFile) : Except IoError Unit × Option FsFile :=
  match count_lines input with
  | .error e => (.error e, prevOut)
  | .ok _total =>
    match read_file input with
    | .error e => (.error e, prevOut)
    | .ok lines =>
      (.ok (), some (write_sort_and_merge_result prevOut
        (workersTable concurrency lines)))

/-- Strip one trailing carriage return from a finished line buffer held in
reverse order, then restore the order: `BufRead::lines` pops a final `'\r'`
only on a line that was terminated by `'\n'`. -/
def finishLine (acc : List Char) : List Char :=
  if acc.head? = some '\r' then acc.tail.reverse else acc.reverse

/-- Modelled from the behaviour of the standard-library `BufRead::lines`
iterator used by `read_file` (src/main.rs:96): split file content into
lines, stripping each terminating `'\n'` (and a `'\r'` immediately before
it); a final unterminated segment is yielded unchanged, and a terminated
final line yields no extra empty line. `acc` holds the current line's
characters in reverse. -/
def splitLinesAux : List Char → List Char → List (List Char)
  | [], [] => []
  | [], a :: as => [(a :: as).reverse]
  | c :: rest, acc =>
    if c = '\n' then finishLine acc :: splitLinesAux rest []
    else splitLinesAux rest (c :: acc)

/-- The lines yielded by `BufRead::lines` on (valid UTF-8) file content. -/
def splitLines (cs : List Char) : List (List Char) := splitLinesAux cs []

/-- Whether an `Except` result is an error (an `unwrap` on it panics). -/
def isErr {ε α : Type} : Except ε α → Bool
  | .error _ => true
  | .ok _ => false

/-- Inserting an element is a permutation of putting it in front. -/
theorem insertDesc_perm (x : DataCount) (l : List DataCount) :
    (insertDesc x l).Perm (x :: l) := by
  induction l with
  | nil => exact List.Perm.refl _
  | cons y ys ih =>
    simp only [insertDesc]
    split
    · exact List.Perm.refl _
    · exact (ih.cons y).trans (List.Perm.swap x y ys)

/-- The sort permutes its input. -/
theorem sortDesc_perm (l : List DataCount) : (sortDesc l).Perm l := by
  induction l with
  | nil => exact List.Perm.refl _
  | cons x xs ih => exact (insertDesc_perm x (sortDesc xs)).trans (ih.cons x)

/-- Inserting into a count-descending list keeps it count-descending. -/
theorem sorted_insertDesc (x : DataCount) (l : List DataCount)
    (h : List.Sorted (fun a b => b.count ≤ a.count) l) :
    List.Sorted (fun a b => b.count ≤ a.count) (insertDesc x l) := by
  induction l with
  | nil => simp [insertDesc]
  | cons y ys ih =>
    rw [List.sorted_cons] at h
    obtain ⟨hy, hys⟩ := h
    simp only [insertDesc]
    split
    · rename_i hle
      rw [List.sorted_cons]
      refine ⟨fun b hb => ?_, List.sorted_cons.mpr ⟨hy, hys⟩⟩
      rcases List.mem_cons.mp hb with rfl | hb
      · exact hle
      · exact le_trans (hy b hb) hle
    · rename_i hle
      rw [List.sorted_cons]
      refine ⟨fun b hb => ?_, ih hys⟩
      rcases List.mem_cons.mp ((insertDesc_perm x ys).mem_iff.mp hb) with rfl | hb
      · exact le_of_not_le hle
      · exact hy b hb

/-- The sort's output is count-descending. -/
theorem sorted_sortDesc (l : List DataCount) :
    List.Sorted (fun a b => b.count ≤ a.count) (sortDesc l) := by
  induction l with
  | nil => simp [sortDesc]
  | cons x xs ih => exact sorted_insertDesc x (sortDesc xs) ih

/-- Incrementing a key raises that key's count by one. -/
theorem getCount_entryOrInsert_self (m : List (String × Nat)) (a : String) :
    getCount (entryOrInsert m a) a = getCount m a + 1 := by
  induction m with
  | nil => simp [entryOrInsert, getCount]
  | cons p rest ih =>
    by_cases h : p.1 = a
    · simp [entryOrInsert, getCount, h]
    · simp [entryOrInsert, getCount, h, ih]

/-- Incrementing a key leaves every other key's count unchanged. -/
theorem getCount_entryOrInsert_ne (m : List (String × Nat)) (a b : String)
    (hab : b ≠ a) : getCount (entryOrInsert m a) b = getCount m b := by
  have hab2 : ¬ a = b := fun hh => hab hh.symm
  induction m with
  | nil => simp [entryOrInsert, getCount, hab2]
  | cons p rest ih =>
    by_cases h : p.1 = a
    · simp [entryOrInsert, getCount, h, hab2]
    · by_cases hpb : p.1 = b
      · simp [entryOrInsert, getCount, h, hpb, hab]
      · simp [entryOrInsert, getCount, h, hpb, ih]

/-- The keys after an increment: unchanged for a present key, the key
appended for an absent one. -/
theorem keysOf_entryOrInsert (m : List (String × Nat)) (a : String) :
    keysOf (entryOrInsert m a)
      = if a ∈ keysOf m then keysOf m else keysOf m ++ [a] := by
  induction m with
  | nil => simp [entryOrInsert, keysOf]
  | cons p rest ih =>
    by_cases h : p.1 = a
    · simp [entryOrInsert, keysOf, h]
    · have hne : ¬ a = p.1 := fun hh => h hh.symm
      have hmem : a ∈ keysOf (p :: rest) ↔ a ∈ keysOf rest := by
        simp [keysOf, hne]
      calc keysOf (entryOrInsert (p :: rest) a)
          = p.1 :: keysOf (entryOrInsert rest a) := by
            simp [entryOrInsert, keysOf, h]
        _ = p.1 :: (if a ∈ keysOf rest then keysOf rest
              else keysOf rest ++ [a]) := by rw [ih]
        _ = if a ∈ keysOf (p :: rest) then keysOf (p :: rest)
              else keysOf (p :: rest) ++ [a] := by
            simp only [hmem, keysOf, List.map_cons]
            split
            · rename_i hm
              rw [if_pos (List.mem_cons_of_mem _ hm)]
            · rename_i hm
              rw [if_neg (by simp [List.mem_cons, hne, hm])]
              rfl

/-- Incrementing preserves uniqueness of the keys. -/
theorem nodup_keysOf_entryOrInsert (m : List (String × Nat)) (a : String)
    (h : (keysOf m).Nodup) : (keysOf (entryOrInsert m a)).Nodup := by
  rw [keysOf_entryOrInsert]
  split
  · exact h
  · rename_i ha
    simp [List.nodup_append, h, ha]

/-- After folding a batch of lines into a table, each key's count has grown
by the key's number of occurrences in the batch. -/
theorem getCount_foldl (lines : List String) (m : List (String × Nat))
    (k : String) :
    getCount (lines.foldl entryOrInsert m) k = getCount m k + lines.count k := by
  induction lines generalizing m with
  | nil => simp
  | cons a rest ih =>
    rw [List.foldl_cons, ih]
    by_cases h : a = k
    · subst h
      rw [getCount_entryOrInsert_self]
      simp [List.count_cons]
      omega
    · rw [getCount_entryOrInsert_ne m a k (fun hh => h hh.symm)]
      simp [List.count_cons, h]

/-- A key is in the folded table exactly when it was there before or occurs
in the batch. -/
theorem mem_keysOf_foldl (lines : List String) (m : List (String × Nat))
    (k : String) :
    k ∈ keysOf (lines.foldl entryOrInsert m) ↔ k ∈ keysOf m ∨ k ∈ lines := by
  induction lines generalizing m with
  | nil => simp
  | cons a rest ih =>
    rw [List.foldl_cons, ih, keysOf_entryOrInsert]
    split
    · rename_i ha
      constructor
      · rintro (h | h)
        · exact Or.inl h
        · exact Or.inr (List.mem_cons_of_mem a h)
      · rintro (h | h)
        · exact Or.inl h
        · rcases List.mem_cons.mp h with rfl | h
          · exact Or.inl ha
          · exact Or.inr h
    · rename_i ha
      simp only [List.mem_append, List.mem_singleton, List.mem_cons]
      tauto

/-- Folding preserves uniqueness of the keys. -/
theorem nodup_keysOf_foldl (lines : List String) (m : List (String × Nat))
    (h : (keysOf m).Nodup) : (keysOf (lines.foldl entryOrInsert m)).Nodup := by
  induction lines generalizing m with
  | nil => exact h
  | cons a rest ih => exact ih _ (nodup_keysOf_entryOrInsert m a h)

/-- `count_data` has unique keys. -/
theorem nodup_keysOf_count_data (lines : List String) :
    (keysOf (count_data lines)).Nodup :=
  nodup_keysOf_foldl lines [] (by simp [keysOf])

/-- The keys of `count_data` are exactly the lines that occur in the input. -/
theorem mem_keysOf_count_data (lines : List String) (a : String) :
    a ∈ keysOf (count_data lines) ↔ a ∈ lines := by
  have := mem_keysOf_foldl lines [] a
  simpa [count_data, keysOf] using this

/-- In `count_data`, each key's stored count is its occurrence count in the
input. -/
theorem getCount_count_data (lines : List String) (k : String) :
    getCount (count_data lines) k = lines.count k := by
  have := getCount_foldl lines [] k
  simpa [count_data, getCount] using this

/-- In a table with unique keys, every entry's value is what lookup returns
for its key. -/
theorem snd_eq_getCount_of_nodup (m : List (String × Nat))
    (h : (keysOf m).Nodup) (p : String × Nat) (hp : p ∈ m) :
    p.2 = getCount m p.1 := by
  induction m with
  | nil => cases hp
  | cons q rest ih =>
    have h2 : q.1 ∉ keysOf rest ∧ (keysOf rest).Nodup := by
      rw [show keysOf (q :: rest) = q.1 :: keysOf rest from rfl,
        List.nodup_cons] at h
      exact h
    rcases List.mem_cons.mp hp with rfl | hp
    · simp [getCount]
    · have h1 : ¬ q.1 = p.1 := by
        intro he
        exact h2.1 (he ▸ List.mem_map_of_mem Prod.fst hp)
      simp only [getCount, if_neg h1]
      exact ih h2.2 hp

/-- `count_data` is the list of pairs (key, occurrence count of the key),
indexed by its own key list. -/
theorem count_data_eq_map (lines : List String) :
    count_data lines
      = (keysOf (count_data lines)).map (fun k => (k, lines.count k)) := by
  have h1 : ∀ p ∈ count_data lines, p = (p.1, lines.count p.1) := by
    intro p hp
    have h2 := snd_eq_getCount_of_nodup (count_data lines)
      (nodup_keysOf_count_data lines) p hp
    rw [getCount_count_data] at h2
    exact Prod.ext rfl h2
  conv_lhs => rw [← List.map_id (count_data lines)]
  rw [keysOf, List.map_map]
  exact List.map_congr_left h1

/-- The key list of `count_data` is a permutation of the deduplicated input. -/
theorem keysOf_count_data_perm_dedup (lines : List String) :
    (keysOf (count_data lines)).Perm lines.dedup := by
  rw [List.perm_ext_iff_of_nodup (nodup_keysOf_count_data lines)
    (List.nodup_dedup lines)]
  intro a
  rw [List.mem_dedup, mem_keysOf_count_data]

/-- The stored counts of `count_data` sum to the input's length. -/
theorem sum_counts_count_data (lines : List String) :
    ((count_data lines).map Prod.snd).sum = lines.length := by
  conv_lhs => rw [count_data_eq_map lines]
  rw [List.map_map]
  have h1 : ((keysOf (count_data lines)).map
      (Prod.snd ∘ fun k => (k, lines.count k))).Perm
      (lines.dedup.map (Prod.snd ∘ fun k => (k, lines.count k))) :=
    (keysOf_count_data_perm_dedup lines).map _
  rw [h1.sum_eq]
  exact List.sum_map_count_dedup_eq_length lines

/-- Writing a batch of rows appends their renderings to the file. -/
theorem content_foldl_writeln (rows : List DataCount) (f : FsFile) :
    (rows.foldl (fun g r => writeln g (renderRow r)) f).content
      = f.content ++ rows.map renderRow := by
  induction rows generalizing f with
  | nil => simp
  | cons r rest ih =>
    rw [List.foldl_cons, ih]
    simp [writeln]

/-- The file written by `write_sort_and_merge_result` is the header followed
by the rendered sorted rows, whatever the file held before. -/
theorem write_sort_content (prev : Option FsFile)
    (data_count : List (String × Nat)) :
    (write_sort_and_merge_result prev data_count).content
      = "Line,Count" :: (reportRows data_count).map renderRow := by
  unfold write_sort_and_merge_result
  rw [content_foldl_writeln]
  simp [writeln, fileCreate]

/-- A line occurring in the input has exactly one report row, and that row
carries the line's occurrence count. -/
theorem count_data_unique_row (lines : List String) (L : String)
    (hL : L ∈ lines) :
    (reportRows (count_data lines)).countP (fun r => r.line == L) = 1 ∧
    ∀ r ∈ reportRows (count_data lines), r.line = L →
      r.count = lines.count L := by
  constructor
  · have h1 : (reportRows (count_data lines)).countP (fun r => r.line == L)
        = (keysOf (count_data lines)).count L := by
      unfold reportRows
      rw [List.Perm.countP_eq _ (sortDesc_perm _), List.countP_map, keysOf,
        List.count_eq_countP, List.countP_map]
      rfl
    rw [h1]
    exact List.count_eq_one_of_mem (nodup_keysOf_count_data lines)
      ((mem_keysOf_count_data lines L).mpr hL)
  · intro r hr hline
    simp only [reportRows] at hr
    have hr2 : r ∈ (count_data lines).map (fun p => DataCount.mk p.1 p.2) :=
      (sortDesc_perm _).mem_iff.mp hr
    obtain ⟨p, hp, hpr⟩ := List.mem_map.mp hr2
    have hval := snd_eq_getCount_of_nodup (count_data lines)
      (nodup_keysOf_count_data lines) p hp
    rw [getCount_count_data] at hval
    subst hpr
    have hkey : p.1 = L := hline
    show p.2 = lines.count L
    rw [hval, hkey]

/-- Tables built from inputs that are permutations of each other are
permutations of each other. -/
theorem count_data_perm (lines1 lines2 : List String)
    (hp : lines1.Perm lines2) :
    (count_data lines1).Perm (count_data lines2) := by
  have hf : (fun k => (k, lines1.count k)) = (fun k => (k, lines2.count k)) := by
    funext k
    rw [hp.count_eq]
  rw [count_data_eq_map lines1, count_data_eq_map lines2, hf]
  apply List.Perm.map
  rw [List.perm_ext_iff_of_nodup (nodup_keysOf_count_data lines1)
    (nodup_keysOf_count_data lines2)]
  intro a
  rw [mem_keysOf_count_data, mem_keysOf_count_data, hp.mem_iff]

/-- If any yielded item is a read error, the send loop of `read_file` ends
in an error. -/
theorem collectLines_error_of_mem (items : List (Except IoError String))
    (e : IoError) (he : Except.error e ∈ items) :
    ∃ e2, collectLines items = Except.error e2 := by
  induction items with
  | nil => cases he
  | cons it rest ih =>
    cases it with
    | error e3 => exact ⟨e3, rfl⟩
    | ok s =>
      have he2 : Except.error e ∈ rest := by
        rcases List.mem_cons.mp he with h | h
        · exact Except.noConfusion h
        · exact h
      obtain ⟨e2, h2⟩ := ih he2
      exact ⟨e2, by simp [collectLines, h2]⟩

/-- Finishing a buffer free of newlines yields a line free of newlines. -/
theorem no_newline_finishLine (acc : List Char) (h : '\n' ∉ acc) :
    '\n' ∉ finishLine acc := by
  unfold finishLine
  split
  · intro hx
    rw [List.mem_reverse] at hx
    exact h (List.mem_of_mem_tail hx)
  · intro hx
    rw [List.mem_reverse] at hx
    exact h hx

/-- Every line yielded by the splitter contains no newline character. -/
theorem no_newline_splitLinesAux (cs : List Char) (acc : List Char)
    (hacc : '\n' ∉ acc) : ∀ l ∈ splitLinesAux cs acc, '\n' ∉ l := by
  induction cs generalizing acc with
  | nil =>
    intro l hl
    cases acc with
    | nil => simp [splitLinesAux] at hl
    | cons a as =>
      have hle : l = (a :: as).reverse := by
        simpa [splitLinesAux] using hl
      subst hle
      rw [List.mem_reverse]
      exact hacc
  | cons c rest ih =>
    intro l hl
    by_cases h : c = '\n'
    · subst h
      rw [show splitLinesAux ('\n' :: rest) acc
          = finishLine acc :: splitLinesAux rest [] from by
        simp [splitLinesAux]] at hl
      rcases List.mem_cons.mp hl with rfl | hl
      · exact no_newline_finishLine acc hacc
      · exact ih [] (by simp) l hl
    · rw [show splitLinesAux (c :: rest) acc
          = splitLinesAux rest (c :: acc) from by simp [splitLinesAux, h]] at hl
      have hacc2 : '\n' ∉ c :: acc := by
        intro hx
        rcases List.mem_cons.mp hx with hx | hx
        · exact h hx.symm
        · exact hacc hx
      exact ih (c :: acc) hacc2 l hl

/-- Claim C1: for every input, the counts across the rows of the written CSV
report sum to the total number of lines read from the input file (for any
positive worker count, which every actual run has). -/
theorem c1_counts_sum_to_line_total (c : Nat) (lines : List String)
    (hc : 0 < c) :
    ((reportRows (workersTable c lines)).map DataCount.count).sum
      = lines.length := by
  obtain ⟨n, rfl⟩ : ∃ n, c = n + 1 := ⟨c - 1, by omega⟩
  show ((reportRows (count_data lines)).map DataCount.count).sum
    = lines.length
  unfold reportRows
  have hperm := (sortDesc_perm ((count_data lines).map
    (fun p => DataCount.mk p.1 p.2))).map DataCount.count
  rw [hperm.sum_eq, List.map_map]
  exact sum_counts_count_data lines

/-- Witness for C1 at concurrency 5 and input ["a", "b", "a"]. -/
theorem c1_counts_sum_to_line_total_witness :
    ((reportRows (workersTable 5 ["a", "b", "a"])).map DataCount.count).sum
      = (["a", "b", "a"] : List String).length :=
  c1_counts_sum_to_line_total 5 ["a", "b", "a"] (by decide)

/-- Claim C2: every distinct line L occurring exactly k ≥ 1 times in the
input has exactly one data row in the output, and that row's count is k. -/
theorem c2_one_row_per_distinct_line (c : Nat) (lines : List String)
    (L : String) (k : Nat) (hc : 0 < c) (hk : lines.count L = k)
    (hk1 : 1 ≤ k) :
    (reportRows (workersTable c lines)).countP (fun r => r.line == L) = 1 ∧
    ∀ r ∈ reportRows (workersTable c lines), r.line = L → r.count = k := by
  obtain ⟨n, rfl⟩ : ∃ n, c = n + 1 := ⟨c - 1, by omega⟩
  have hL : L ∈ lines := by
    have hpos : 0 < lines.count L := by omega
    exact List.count_pos_iff.mp hpos
  have huniq := count_data_unique_row lines L hL
  refine ⟨huniq.1, ?_⟩
  intro r hr hline
  rw [← hk]
  exact huniq.2 r hr hline

/-- Witness for C2 at concurrency 5, input ["a", "b", "a"], line "a", k 2. -/
theorem c2_one_row_per_distinct_line_witness :
    (reportRows (workersTable 5 ["a", "b", "a"])).countP
        (fun r => r.line == "a") = 1 ∧
    ∀ r ∈ reportRows (workersTable 5 ["a", "b", "a"]), r.line = "a" →
      r.count = 2 :=
  c2_one_row_per_distinct_line 5 ["a", "b", "a"] "a" 2 (by decide) rfl
    (by decide)

/-- Claim C3: the data rows of every report are ordered by count in
non-increasing order over the entire sequence, and on the input
"a","b","a","a","b" the run writes exactly the header `Line,Count`, then
`a,3`, then `b,2`. -/
theorem c3_rows_sorted_desc :
    (∀ data_count : List (String × Nat),
      List.Sorted (fun a b => b.count ≤ a.count) (reportRows data_count)) ∧
    mainRun 5 (Except.ok [Except.ok "a", Except.ok "b", Except.ok "a",
      Except.ok "a", Except.ok "b"]) none
      = (Except.ok (), some ⟨["Line,Count", "a,3", "b,2"]⟩) :=
  ⟨fun _ => sorted_sortDesc _, rfl⟩

/-- Claim C4 is false of the code: a failed read yielded mid-scan by the
`lines()` iterator does not make `count_lines` return an error — the failed
item is simply counted, here as the single line of the file. -/
theorem c4_counterexample_read_error_counted :
    count_lines (Except.ok [Except.error IoError.invalidData])
      = Except.ok 1 ∧
    isErr (count_lines (Except.ok [Except.error IoError.invalidData]))
      = false :=
  ⟨rfl, rfl⟩

/-- Claim C4 (amended): `count_lines` returns an `IoError` exactly when
`File::open` fails; every item the `lines()` iterator yields mid-scan,
failed reads included, is counted, so on an opened file the result is the
number of yielded items, never an error. -/
theorem c4_count_lines_open_failure_only (e : IoError)
    (items : List (Except IoError String)) :
    count_lines (Except.error e) = Except.error e ∧
    count_lines (Except.ok items) = Except.ok items.length :=
  ⟨rfl, rfl⟩

/-- Claim C5 is false of the code at concurrency 0: `main` spawns no worker,
nothing ever drains the channel, and the table stays empty, so concurrency 0
and concurrency 1 disagree on the one-line input "a". -/
theorem c5_counterexample_zero_concurrency :
    workersTable 0 ["a"] = [] ∧ workersTable 1 ["a"] = [("a", 1)] ∧
    ¬ (workersTable 0 ["a"]).Perm (workersTable 1 ["a"]) :=
  ⟨rfl, rfl, fun h => absurd h.length_eq (by decide)⟩

/-- Claim C5 (amended): for every two positive concurrency values and any
two delivery orders of the same input lines, the computed frequency tables
agree as multisets of (line, count) pairs. -/
theorem c5_positive_concurrency_same_multiset (c1 c2 : Nat)
    (lines1 lines2 : List String) (h1 : 0 < c1) (h2 : 0 < c2)
    (hp : lines1.Perm lines2) :
    (workersTable c1 lines1).Perm (workersTable c2 lines2) := by
  obtain ⟨n1, rfl⟩ : ∃ n, c1 = n + 1 := ⟨c1 - 1, by omega⟩
  obtain ⟨n2, rfl⟩ : ∃ n, c2 = n + 1 := ⟨c2 - 1, by omega⟩
  exact count_data_perm lines1 lines2 hp

/-- Witness for the amended C5 at concurrencies 1 and 2 on permuted inputs. -/
theorem c5_positive_concurrency_same_multiset_witness :
    (workersTable 1 ["a", "b"]).Perm (workersTable 2 ["b", "a"]) :=
  c5_positive_concurrency_same_multiset 1 2 ["a", "b"] ["b", "a"]
    (by decide) (by decide) (List.Perm.swap "b" "a" [])

/-- Claim C6: if the input cannot be opened the run fails with the output
file untouched (none is created when none existed), and if any read fails
during the producing scan the run aborts before the report phase, again
leaving the output file untouched. -/
theorem c6_abort_writes_no_report (c : Nat) (prev : Option FsFile)
    (e eread : IoError) (items : List (Except IoError String))
    (he : Except.error eread ∈ items) :
    mainRun c (Except.error e) prev = (Except.error e, prev) ∧
    isErr (mainRun c (Except.ok items) prev).1 = true ∧
    (mainRun c (Except.ok items) prev).2 = prev := by
  obtain ⟨e2, h2⟩ := collectLines_error_of_mem items eread he
  refine ⟨rfl, ?_, ?_⟩
  · simp [mainRun, count_lines, read_file, h2, isErr]
  · simp [mainRun, count_lines, read_file, h2]

/-- Witness for C6: a missing input file, and a mid-scan read failure, with
no pre-existing output file. -/
theorem c6_abort_writes_no_report_witness :
    mainRun 5 (Except.error IoError.notFound) none
      = (Except.error IoError.notFound, none) ∧
    isErr (mainRun 5 (Except.ok [Except.error IoError.readError]) none).1
      = true ∧
    (mainRun 5 (Except.ok [Except.error IoError.readError]) none).2 = none :=
  c6_abort_writes_no_report 5 none IoError.notFound IoError.readError
    [Except.error IoError.readError] (List.Mem.head _)

/-- Claim C7: on an empty input (0 lines) the run writes a report consisting
of exactly the header row `Line,Count` and no data rows, for any concurrency
and any previous state of the output file. -/
theorem c7_empty_input_header_only (c : Nat) (prev : Option FsFile) :
    mainRun c (Except.ok []) prev
      = (Except.ok (), some ⟨["Line,Count"]⟩) := by
  cases c <;> rfl

/-- Claim C8: a successful run fully overwrites the output file — the
resulting file state is independent of whatever the file held before the
run, so no stale rows persist. -/
theorem c8_rerun_overwrites (c : Nat)
    (input : Except IoError (List (Except IoError String)))
    (prev prev2 : Option FsFile)
    (h : isErr (mainRun c input prev).1 = false) :
    (mainRun c input prev).2 = (mainRun c input prev2).2 := by
  cases input with
  | error e => simp [mainRun, count_lines, isErr] at h
  | ok items =>
    cases h2 : collectLines items with
    | error e => simp [mainRun, count_lines, read_file, h2, isErr] at h
    | ok lines =>
      simp [mainRun, count_lines, read_file, h2,
        write_sort_and_merge_result, fileCreate]

/-- Witness for C8: stale content ["old"] is fully replaced. -/
theorem c8_rerun_overwrites_witness :
    (mainRun 1 (Except.ok [Except.ok "a"]) (some ⟨["old"]⟩)).2
      = (mainRun 1 (Except.ok [Except.ok "a"]) none).2 :=
  c8_rerun_overwrites 1 (Except.ok [Except.ok "a"]) (some ⟨["old"]⟩) none rfl

/-- Claim C9: the written report is the header row `Line,Count` followed by
one data row per distinct input line, each row rendered verbatim as the line
text, a comma, and the decimal count — plain comma-joining with no quoting
or escaping, whatever characters (commas included) the line contains. -/
theorem c9_output_format (prev : Option FsFile) (lines : List String) :
    (write_sort_and_merge_result prev (count_data lines)).content
      = "Line,Count" :: (reportRows (count_data lines)).map
          (fun r => r.line ++ "," ++ toString r.count) ∧
    (reportRows (count_data lines)).length = lines.dedup.length := by
  constructor
  · rw [write_sort_content]
    exact rfl
  · unfold reportRows
    rw [(sortDesc_perm _).length_eq, List.length_map,
      ← (keysOf_count_data_perm_dedup lines).length_eq, keysOf,
      List.length_map]

/-- Claim C10: blank lines are counted like any other line: with k ≥ 1 blank
lines in the input the report has exactly one row whose line field is the
empty string, its count is k, and it renders as a row beginning with a comma;
moreover the `lines()` splitting strips terminators, so no produced line
contains a newline character. -/
theorem c10_blank_lines_counted (c : Nat) (lines : List String) (k : Nat)
    (hc : 0 < c) (hk : lines.count "" = k) (hk1 : 1 ≤ k) :
    ((reportRows (workersTable c lines)).countP (fun r => r.line == "") = 1 ∧
      ∀ r ∈ reportRows (workersTable c lines), r.line = "" →
        r.count = k ∧ renderRow r = "," ++ toString k) ∧
    ∀ (cs : List Char) (l : List Char), l ∈ splitLines cs → '\n' ∉ l := by
  obtain ⟨n, rfl⟩ : ∃ n, c = n + 1 := ⟨c - 1, by omega⟩
  have hmem : "" ∈ lines := by
    have hpos : 0 < lines.count "" := by omega
    exact List.count_pos_iff.mp hpos
  have huniq := count_data_unique_row lines "" hmem
  refine ⟨⟨huniq.1, ?_⟩, ?_⟩
  · intro r hr hline
    have hcnt := huniq.2 r hr hline
    rw [hk] at hcnt
    refine ⟨hcnt, ?_⟩
    show r.line ++ "," ++ toString r.count = "," ++ toString k
    rw [hline, hcnt]
    rfl
  · exact fun cs l hl => no_newline_splitLinesAux cs [] (by simp) l hl

/-- Witness for C10 at concurrency 5 and input ["", "x", ""] (k = 2). -/
theorem c10_blank_lines_counted_witness :
    ((reportRows (workersTable 5 ["", "x", ""])).countP
        (fun r => r.line == "") = 1 ∧
      ∀ r ∈ reportRows (workersTable 5 ["", "x", ""]), r.line = "" →
        r.count = 2 ∧ renderRow r = "," ++ toString 2) ∧
    ∀ (cs : List Char) (l : List Char), l ∈ splitLines cs → '\n' ∉ l :=
  c10_blank_lines_counted 5 ["", "x", ""] 2 (by decide) rfl (by decide)

end CsvAction
